import Mathlib

/-!
# Verification of the ffht.rs wrapper (`src/src/lib.rs`)

Shallow embedding of the Rust FFHT wrapper.  The wrapper itself
(`validate_size`, the `Fht` impls for `f32`/`f64`, the `FhtArray` impls
for `Array1` and `ArrayViewMut1`) is embedded from `src/src/lib.rs`.
The transform engine (`fht_float`, `fht_double`, `fht_float_oop`,
`fht_double_oop`) is C code declared `extern` in `src/src/lib.rs` but whose
body is not part of `src/`; where a claim depends on its behaviour it is
modelled from the spec (doc comments say so explicitly).

Buffer elements are modelled as exact rationals `ℚ`; the `f32` and `f64`
trait impls in `lib.rs` are textually identical up to the element type and
the FFI symbol they call, so a single embedding parameterised by an
abstract kernel covers both.
-/

/-- Embeds `enum FhtError` from `src/src/lib.rs` lines 33-41.
`InvalidSize(usize)`, `SizeTooLarge(usize)`, `InternalError(i32)`. -/
inductive FhtError : Type where
  | InvalidSize (size : Nat)
  | SizeTooLarge (size : Nat)
  | InternalError (code : Int)
deriving DecidableEq, Repr

/-- Embeds `pub type FhtResult<T> = Result<T, FhtError>` (lib.rs line 61). -/
inductive FhtResult (α : Type) : Type where
  | ok (v : α)
  | err (e : FhtError)
deriving DecidableEq, Repr

/-- Bit-bounded population count: `popCountAux fuel n` counts the one bits
among the low `fuel` bits of `n`.  Structural in `fuel` so that it reduces
in the kernel. -/
def popCountAux : Nat → Nat → Nat
  | 0, _ => 0
  | fuel + 1, n => n % 2 + popCountAux fuel (n / 2)

/-- Embeds `usize::count_ones` from the Rust standard library for a 64-bit
`usize` (exact for every `n < 2^64`). -/
def count_ones (n : Nat) : Nat := popCountAux 64 n

/-- Embeds `usize::is_power_of_two` from the Rust standard library, whose
source is `self.count_ones() == 1`. -/
def is_power_of_two (n : Nat) : Bool :=
  count_ones n == 1

/-- Bit-bounded trailing-zero count, structural in `fuel`. -/
def trailing_zerosAux : Nat → Nat → Nat
  | 0, _ => 0
  | fuel + 1, n => if n % 2 = 1 then 0 else 1 + trailing_zerosAux fuel (n / 2)

/-- Embeds `usize::trailing_zeros` from the Rust standard library for a
64-bit `usize`: the number of trailing zero bits of `n`, and 64 when
`n = 0`, exactly as in Rust (exact for every `n < 2^64`). -/
def trailing_zeros (n : Nat) : Nat := trailing_zerosAux 64 n

/-- Embeds `fn validate_size(size: usize) -> FhtResult<usize>`
(lib.rs lines 160-172): `InvalidSize` when `size == 0 ||
!size.is_power_of_two()`, then `log_n = size.trailing_zeros()`,
`SizeTooLarge` when `log_n > 30`, else `Ok(log_n)`. -/
def validate_size (size : Nat) : FhtResult Nat :=
  if size == 0 || !(is_power_of_two size) then
    .err (.InvalidSize size)
  else
    let log_n := trailing_zeros size
    if log_n > 30 then
      .err (.SizeTooLarge size)
    else
      .ok log_n


-- Characterisation lemmas for the bit helpers.

theorem popCountAux_zero (fuel : Nat) : popCountAux fuel 0 = 0 := by
  induction fuel with
  | zero => rfl
  | succ fuel ih => simp [popCountAux, ih]

theorem popCountAux_eq_zero_iff (fuel n : Nat) (h : n < 2 ^ fuel) :
    popCountAux fuel n = 0 ↔ n = 0 := by
  induction fuel generalizing n with
  | zero => simp only [pow_zero, Nat.lt_one_iff] at h; simp [h, popCountAux]
  | succ fuel ih =>
    rw [popCountAux]
    have hdiv : n / 2 < 2 ^ fuel := by
      rw [pow_succ] at h; omega
    rw [Nat.add_eq_zero]
    constructor
    · rintro ⟨h1, h2⟩
      have := (ih _ hdiv).mp h2
      omega
    · rintro rfl
      exact ⟨rfl, popCountAux_zero fuel⟩

theorem popCountAux_eq_one_iff (fuel n : Nat) (h : n < 2 ^ fuel) :
    popCountAux fuel n = 1 ↔ ∃ k, n = 2 ^ k := by
  induction fuel generalizing n with
  | zero =>
    simp only [pow_zero, Nat.lt_one_iff] at h
    subst h
    simp only [popCountAux]
    constructor
    · omega
    · rintro ⟨k, hk⟩
      exact absurd hk.symm (Nat.pos_iff_ne_zero.mp (Nat.pos_pow_of_pos k (by omega)))
  | succ fuel ih =>
    rw [popCountAux]
    have hdiv : n / 2 < 2 ^ fuel := by
      rw [pow_succ] at h; omega
    rcases Nat.even_or_odd n with he | ho
    · have h2 : n % 2 = 0 := Nat.even_iff.mp he
      rw [h2, Nat.zero_add, ih _ hdiv]
      constructor
      · rintro ⟨k, hk⟩
        refine ⟨k + 1, ?_⟩
        rw [pow_succ]
        omega
      · rintro ⟨k, hk⟩
        match k with
        | 0 => omega
        | k + 1 =>
          refine ⟨k, ?_⟩
          rw [pow_succ] at hk
          omega
    · have h2 : n % 2 = 1 := Nat.odd_iff.mp ho
      rw [h2]
      constructor
      · intro h1
        have h0 : popCountAux fuel (n / 2) = 0 := by omega
        have := (popCountAux_eq_zero_iff fuel _ hdiv).mp h0
        exact ⟨0, by omega⟩
      · rintro ⟨k, hk⟩
        match k with
        | 0 =>
          subst hk
          simp [popCountAux_zero]
        | k + 1 =>
          rw [pow_succ] at hk
          omega

theorem is_power_of_two_iff (n : Nat) (h : n < 2 ^ 64) :
    is_power_of_two n = true ↔ ∃ k, n = 2 ^ k := by
  rw [is_power_of_two, count_ones, beq_iff_eq]
  exact popCountAux_eq_one_iff 64 n h

theorem trailing_zerosAux_two_pow (fuel k : Nat) (h : k < fuel) :
    trailing_zerosAux fuel (2 ^ k) = k := by
  induction k generalizing fuel with
  | zero =>
    match fuel, h with
    | fuel + 1, _ => simp [trailing_zerosAux]
  | succ k ih =>
    match fuel, h with
    | fuel + 1, h =>
      rw [trailing_zerosAux]
      have hmod : 2 ^ (k + 1) % 2 = 0 := by
        rw [pow_succ, Nat.mul_mod_left]
      have hdiv : 2 ^ (k + 1) / 2 = 2 ^ k := by
        rw [pow_succ, Nat.mul_div_cancel _ (by omega)]
      rw [if_neg (by omega), hdiv, ih fuel (by omega)]
      omega

theorem trailing_zeros_two_pow (k : Nat) (h : k < 64) :
    trailing_zeros (2 ^ k) = k :=
  trailing_zerosAux_two_pow 64 k h

theorem validate_size_two_pow (k : Nat) (h : k ≤ 30) :
    validate_size (2 ^ k) = .ok k := by
  have hlt : (2 : Nat) ^ k < 2 ^ 64 :=
    Nat.pow_lt_pow_right (by omega) (by omega)
  have hpow : is_power_of_two (2 ^ k) = true :=
    (is_power_of_two_iff _ hlt).mpr ⟨k, rfl⟩
  have hpos : (2 : Nat) ^ k ≠ 0 := (Nat.pos_pow_of_pos k (by omega)).ne'
  rw [validate_size]
  rw [if_neg (by simp [hpow, hpos])]
  rw [trailing_zeros_two_pow k (by omega)]
  rw [if_neg (by omega)]

/-!
## The `Fht` trait impls (lib.rs lines 91-157)

The `f32` and `f64` impls are textually identical up to the element type
and the FFI symbol (`fht_float`/`fht_double`, `fht_float_oop`/
`fht_double_oop`), so both are embedded once, parameterised by an abstract
kernel.  An in-place kernel maps the buffer contents and `log_n` to the C
return status and the buffer contents after the call; an out-of-place
kernel additionally sees the previous destination contents.  The source
pointer of the out-of-place FFI symbols is `*const` (lib.rs lines 75, 78),
so an out-of-place kernel cannot write the source: the embedding returns
the source unchanged.
-/

/-- Embeds `<f32 as Fht>::fht_inplace` (lib.rs lines 92-103) and
`<f64 as Fht>::fht_inplace` (lines 126-137): validate the length, call the
in-place kernel, map a nonzero status to `InternalError`.  Returns the
Rust result together with the final contents of `data`. -/
def fht_inplace (kernel : List ℚ → Nat → Int × List ℚ) (data : List ℚ) :
    FhtResult Unit × List ℚ :=
  match validate_size data.length with
  | .err e => (.err e, data)
  | .ok log_n =>
    let r := kernel data log_n
    if r.1 ≠ 0 then (.err (.InternalError r.1), r.2) else (.ok (), r.2)

/-- Embeds `<f32 as Fht>::fht` (lib.rs lines 105-122) and
`<f64 as Fht>::fht` (lines 139-156): reject a length mismatch with
`InvalidSize(output.len())`, validate the length, call the out-of-place
kernel, map a nonzero status to `InternalError`.  Returns the Rust result
together with the final contents of `input` and `output`. -/
def fht (kernel : List ℚ → List ℚ → Nat → Int × List ℚ)
    (input output : List ℚ) : FhtResult Unit × List ℚ × List ℚ :=
  if input.length ≠ output.length then
    (.err (.InvalidSize output.length), input, output)
  else
    match validate_size input.length with
    | .err e => (.err e, input, output)
    | .ok log_n =>
      let r := kernel input output log_n
      if r.1 ≠ 0 then (.err (.InternalError r.1), input, r.2)
      else (.ok (), input, r.2)

/-- C1: for every `usize` length `n`, `validate_size(n)` returns
`Ok(trailing_zeros n)` iff `n > 0`, `n` is an exact power of two, and
`trailing_zeros n ≤ 30`; it returns `Err(InvalidSize(n))` when `n` is zero
or not a power of two, `Err(SizeTooLarge(n))` when `n` is a power of two
whose exponent exceeds 30; in particular `2^31` is rejected with
`SizeTooLarge` and `2^30` is accepted. -/
theorem validate_size_characterisation (n : Nat) (hn : n < 2 ^ 64) :
    (validate_size n = .ok (trailing_zeros n) ↔
      (0 < n ∧ (∃ k, n = 2 ^ k) ∧ trailing_zeros n ≤ 30)) ∧
    ((n = 0 ∨ ¬ (∃ k, n = 2 ^ k)) → validate_size n = .err (.InvalidSize n)) ∧
    ((∃ k, n = 2 ^ k) → 30 < trailing_zeros n →
      validate_size n = .err (.SizeTooLarge n)) ∧
    validate_size (2 ^ 31) = .err (.SizeTooLarge (2 ^ 31)) ∧
    validate_size (2 ^ 30) = .ok 30 := by
  refine ⟨?_, ?_, ?_, by decide, by decide⟩
  · constructor
    · intro h
      by_cases hz : n = 0
      · subst hz; simp [validate_size] at h
      by_cases hp : is_power_of_two n
      · obtain ⟨k, rfl⟩ := (is_power_of_two_iff n hn).mp hp
        refine ⟨by positivity, ⟨k, rfl⟩, ?_⟩
        rw [validate_size, if_neg (by simp [hp, hz])] at h
        by_cases h30 : trailing_zeros (2 ^ k) > 30
        · rw [if_pos h30] at h; exact absurd h (by simp)
        · omega
      · rw [validate_size, if_pos (by simp [hp])] at h
        exact absurd h (by simp)
    · rintro ⟨hpos, ⟨k, rfl⟩, h30⟩
      have hp : is_power_of_two (2 ^ k) = true :=
        (is_power_of_two_iff _ hn).mpr ⟨k, rfl⟩
      rw [validate_size, if_neg (by simp [hp])]
      rw [if_neg (by omega)]
  · rintro (rfl | hnp)
    · decide
    · have hp : is_power_of_two n = false := by
        rcases h : is_power_of_two n with _ | _
        · rfl
        · exact absurd ((is_power_of_two_iff n hn).mp h) hnp
      rw [validate_size, if_pos (by simp [hp])]
  · rintro ⟨k, rfl⟩ h30
    have hp : is_power_of_two (2 ^ k) = true :=
      (is_power_of_two_iff _ hn).mpr ⟨k, rfl⟩
    have hpos : (2 : Nat) ^ k ≠ 0 := (Nat.pos_pow_of_pos k (by omega)).ne'
    rw [validate_size, if_neg (by simp [hp, hpos]), if_pos (by omega)]

/-- Witness for C1 at `n = 8`: the hypothesis holds and the
characterisation specialises as expected. -/
theorem validate_size_characterisation_witness :
    (8 : Nat) < 2 ^ 64 ∧
    ((validate_size 8 = .ok (trailing_zeros 8) ↔
        (0 < 8 ∧ (∃ k, (8 : Nat) = 2 ^ k) ∧ trailing_zeros 8 ≤ 30)) ∧
      (((8 : Nat) = 0 ∨ ¬ (∃ k, (8 : Nat) = 2 ^ k)) →
        validate_size 8 = .err (.InvalidSize 8)) ∧
      ((∃ k, (8 : Nat) = 2 ^ k) → 30 < trailing_zeros 8 →
        validate_size 8 = .err (.SizeTooLarge 8)) ∧
      validate_size (2 ^ 31) = .err (.SizeTooLarge (2 ^ 31)) ∧
      validate_size (2 ^ 30) = .ok 30) :=
  ⟨by decide, validate_size_characterisation 8 (by decide)⟩

/-- C3: when the source and destination lengths differ, the out-of-place
wrapper returns `Err(InvalidSize(output.len()))` and never invokes the
underlying kernel: the result is the same for every kernel and both
buffers are untouched. -/
theorem fht_oop_length_mismatch
    (kernel : List ℚ → List ℚ → Nat → Int × List ℚ)
    (input output : List ℚ) (h : input.length ≠ output.length) :
    fht kernel input output = (.err (.InvalidSize output.length), input, output) := by
  rw [fht, if_pos h]

/-- Witness for C3 at `input = [1]`, `output = []`, with a kernel that
would overwrite the destination if it were ever invoked. -/
theorem fht_oop_length_mismatch_witness :
    ([(1 : ℚ)].length ≠ ([] : List ℚ).length) ∧
    fht (fun _ _ _ => (0, [5])) [(1 : ℚ)] [] =
      (.err (.InvalidSize 0), [(1 : ℚ)], []) :=
  ⟨by decide, fht_oop_length_mismatch (fun _ _ _ => (0, [5])) [(1 : ℚ)] [] (by decide)⟩

/-- C4: whenever the in-place or out-of-place wrapper returns
`Err(InvalidSize(_))` or `Err(SizeTooLarge(_))`, no caller buffer has been
mutated, for every possible kernel behaviour: the returned buffer contents
equal exactly what the caller supplied. -/
theorem fht_size_error_buffers_untouched
    (kernelIn : List ℚ → Nat → Int × List ℚ)
    (kernelOop : List ℚ → List ℚ → Nat → Int × List ℚ)
    (data input output : List ℚ) (s : Nat) :
    (((fht_inplace kernelIn data).1 = .err (.InvalidSize s) ∨
        (fht_inplace kernelIn data).1 = .err (.SizeTooLarge s)) →
      (fht_inplace kernelIn data).2 = data) ∧
    (((fht kernelOop input output).1 = .err (.InvalidSize s) ∨
        (fht kernelOop input output).1 = .err (.SizeTooLarge s)) →
      (fht kernelOop input output).2.1 = input ∧
        (fht kernelOop input output).2.2 = output) := by
  constructor
  · intro hres
    rw [fht_inplace] at hres ⊢
    match hv : validate_size data.length with
    | .err e => simp [hv]
    | .ok log_n =>
      rw [hv] at hres
      simp only at hres
      by_cases hst : (kernelIn data log_n).1 ≠ 0
      · rw [if_pos hst] at hres
        rcases hres with hres | hres <;> simp at hres
      · rw [if_neg hst] at hres
        rcases hres with hres | hres <;> simp at hres
  · intro hres
    rw [fht] at hres ⊢
    by_cases hlen : input.length ≠ output.length
    · rw [if_pos hlen]
      exact ⟨rfl, rfl⟩
    · rw [if_neg hlen] at hres ⊢
      match hv : validate_size input.length with
      | .err e => simp [hv]
      | .ok log_n =>
        rw [hv] at hres
        simp only at hres
        by_cases hst : (kernelOop input output log_n).1 ≠ 0
        · rw [if_pos hst] at hres
          rcases hres with hres | hres <;> simp at hres
        · rw [if_neg hst] at hres
          rcases hres with hres | hres <;> simp at hres

/-- Witness for C4: the in-place wrapper on the length-3 buffer `[1,2,3]`
(with a kernel that would zero the buffer if invoked) fails with
`InvalidSize 3` and returns the buffer untouched, and the out-of-place
wrapper on mismatched lengths returns both buffers untouched. -/
theorem fht_size_error_buffers_untouched_witness :
    ((fht_inplace (fun _ _ => (0, [0, 0, 0])) [(1 : ℚ), 2, 3]).1 =
        .err (.InvalidSize 3) ∨
      (fht_inplace (fun _ _ => (0, [0, 0, 0])) [(1 : ℚ), 2, 3]).1 =
        .err (.SizeTooLarge 3)) ∧
    (fht_inplace (fun _ _ => (0, [0, 0, 0])) [(1 : ℚ), 2, 3]).2 = [1, 2, 3] :=
  ⟨Or.inl (by decide),
    (fht_size_error_buffers_untouched (fun _ _ => (0, [0, 0, 0]))
      (fun _ _ _ => (0, [])) [(1 : ℚ), 2, 3] [] [] 3).1 (Or.inl (by decide))⟩

/-!
## The transform engine, modelled from the spec

The engine bodies (`FFHT/fht.c`, `fast_copy.c`) are repository code that is
not under `src/`; only their `extern` declarations appear in `lib.rs`.
The definitions below model them from the spec.
-/

/-- Modelled from the spec: the butterfly recursion of §4.2 for the engine
`fht_float`/`fht_double`, over exact rationals.  "A length-n transform
equals two independent length-(n/2) transforms on the two halves of the buffer,
followed by one butterfly pass combining corresponding elements across the
halves (stride n/2)"; the butterfly replaces a pair `(x, y)` with
`(x+y, x−y)`.  `fhtFun k x i` is element `i` of the order-`2^k` transform
of the sequence `x`; indices at or beyond `2^k` are ignored. -/
def fhtFun : Nat → (Nat → ℚ) → Nat → ℚ
  | 0, x => x
  | k + 1, x => fun i =>
    if i < 2 ^ k then
      fhtFun k x i + fhtFun k (fun j => x (j + 2 ^ k)) i
    else
      fhtFun k x (i - 2 ^ k) - fhtFun k (fun j => x (j + 2 ^ k)) (i - 2 ^ k)

theorem fhtFun_succ_apply (k : Nat) (x : Nat → ℚ) (i : Nat) :
    fhtFun (k + 1) x i =
      if i < 2 ^ k then
        fhtFun k x i + fhtFun k (fun j => x (j + 2 ^ k)) i
      else
        fhtFun k x (i - 2 ^ k) - fhtFun k (fun j => x (j + 2 ^ k)) (i - 2 ^ k) := rfl

theorem fhtFun_congr (k : Nat) (x y : Nat → ℚ)
    (h : ∀ j, j < 2 ^ k → x j = y j) :
    ∀ i, i < 2 ^ k → fhtFun k x i = fhtFun k y i := by
  induction k generalizing x y with
  | zero => intro i hi; exact h i hi
  | succ k ih =>
    intro i hi
    have h2 : (2 : Nat) ^ (k + 1) = 2 * 2 ^ k := by rw [pow_succ, Nat.mul_comm]
    have hlow : ∀ j, j < 2 ^ k → x j = y j := fun j hj => h j (by omega)
    have hhigh : ∀ j, j < 2 ^ k → x (j + 2 ^ k) = y (j + 2 ^ k) :=
      fun j hj => h (j + 2 ^ k) (by omega)
    rw [fhtFun_succ_apply, fhtFun_succ_apply]
    by_cases hik : i < 2 ^ k
    · rw [if_pos hik, if_pos hik, ih x y hlow i hik,
        ih (fun j => x (j + 2 ^ k)) (fun j => y (j + 2 ^ k)) hhigh i hik]
    · have hsub : i - 2 ^ k < 2 ^ k := by omega
      rw [if_neg hik, if_neg hik, ih x y hlow _ hsub,
        ih (fun j => x (j + 2 ^ k)) (fun j => y (j + 2 ^ k)) hhigh _ hsub]

theorem fhtFun_add (k : Nat) (x y : Nat → ℚ) (i : Nat) :
    fhtFun k (fun j => x j + y j) i = fhtFun k x i + fhtFun k y i := by
  induction k generalizing x y i with
  | zero => rfl
  | succ k ih =>
    simp only [fhtFun_succ_apply]
    by_cases hik : i < 2 ^ k
    · simp only [if_pos hik, ih]
      ring
    · simp only [if_neg hik, ih]
      ring

theorem fhtFun_sub (k : Nat) (x y : Nat → ℚ) (i : Nat) :
    fhtFun k (fun j => x j - y j) i = fhtFun k x i - fhtFun k y i := by
  induction k generalizing x y i with
  | zero => rfl
  | succ k ih =>
    simp only [fhtFun_succ_apply]
    by_cases hik : i < 2 ^ k
    · simp only [if_pos hik, ih]
      ring
    · simp only [if_neg hik, ih]
      ring

theorem fhtFun_invol (k : Nat) (x : Nat → ℚ) :
    ∀ i, i < 2 ^ k → fhtFun k (fhtFun k x) i = 2 ^ k * x i := by
  induction k generalizing x with
  | zero => intro i hi; show x i = 2 ^ 0 * x i; rw [pow_zero, one_mul]
  | succ k ih =>
    intro i hi
    have h2 : (2 : Nat) ^ (k + 1) = 2 * 2 ^ k := by rw [pow_succ, Nat.mul_comm]
    have hGlow : ∀ j, j < 2 ^ k → fhtFun (k + 1) x j =
        fhtFun k x j + fhtFun k (fun t => x (t + 2 ^ k)) j := by
      intro j hj
      rw [fhtFun_succ_apply, if_pos hj]
    have hGhigh : ∀ j, j < 2 ^ k → fhtFun (k + 1) x (j + 2 ^ k) =
        fhtFun k x j - fhtFun k (fun t => x (t + 2 ^ k)) j := by
      intro j hj
      rw [fhtFun_succ_apply, if_neg (by omega), Nat.add_sub_cancel]
    rw [fhtFun_succ_apply]
    by_cases hik : i < 2 ^ k
    · rw [if_pos hik,
        fhtFun_congr k (fhtFun (k + 1) x)
          (fun j => fhtFun k x j + fhtFun k (fun t => x (t + 2 ^ k)) j)
          hGlow i hik,
        fhtFun_congr k (fun j => fhtFun (k + 1) x (j + 2 ^ k))
          (fun j => fhtFun k x j - fhtFun k (fun t => x (t + 2 ^ k)) j)
          (fun j hj => hGhigh j hj) i hik,
        fhtFun_add k (fhtFun k x) (fhtFun k (fun t => x (t + 2 ^ k))) i,
        fhtFun_sub k (fhtFun k x) (fhtFun k (fun t => x (t + 2 ^ k))) i,
        ih x i hik, ih (fun t => x (t + 2 ^ k)) i hik]
      rw [pow_succ]
      ring
    · have hsub : i - 2 ^ k < 2 ^ k := by omega
      rw [if_neg hik,
        fhtFun_congr k (fhtFun (k + 1) x)
          (fun j => fhtFun k x j + fhtFun k (fun t => x (t + 2 ^ k)) j)
          hGlow _ hsub,
        fhtFun_congr k (fun j => fhtFun (k + 1) x (j + 2 ^ k))
          (fun j => fhtFun k x j - fhtFun k (fun t => x (t + 2 ^ k)) j)
          (fun j hj => hGhigh j hj) _ hsub,
        fhtFun_add k (fhtFun k x) (fhtFun k (fun t => x (t + 2 ^ k))) _,
        fhtFun_sub k (fhtFun k x) (fhtFun k (fun t => x (t + 2 ^ k))) _,
        ih x _ hsub, ih (fun t => x (t + 2 ^ k)) _ hsub]
      have hcancel : i - 2 ^ k + 2 ^ k = i := by omega
      show 2 ^ k * x (i - 2 ^ k) + 2 ^ k * x (i - 2 ^ k + 2 ^ k) -
          (2 ^ k * x (i - 2 ^ k) - 2 ^ k * x (i - 2 ^ k + 2 ^ k)) =
        2 ^ (k + 1) * x i
      rw [hcancel, pow_succ]
      ring

/-- Modelled from the spec: the transform of the engine at buffer level.
Element `i` of the output is `fhtFun log_n` applied to the buffer read as
an index function (out-of-range reads default to 0 and are never used on a
buffer of length `2^log_n`). -/
def fht_engine (log_n : Nat) (buf : List ℚ) : List ℚ :=
  (List.range (2 ^ log_n)).map (fun i => fhtFun log_n (fun j => buf.getD j 0) i)

theorem fht_engine_length (log_n : Nat) (buf : List ℚ) :
    (fht_engine log_n buf).length = 2 ^ log_n := by
  rw [fht_engine, List.length_map, List.length_range]

theorem fht_engine_getElem (log_n : Nat) (buf : List ℚ) (i : Nat)
    (hi : i < (fht_engine log_n buf).length) :
    (fht_engine log_n buf)[i] = fhtFun log_n (fun j => buf.getD j 0) i := by
  simp [fht_engine]

theorem fht_engine_getD (log_n : Nat) (buf : List ℚ) (i : Nat)
    (hi : i < 2 ^ log_n) :
    (fht_engine log_n buf).getD i 0 =
      fhtFun log_n (fun j => buf.getD j 0) i := by
  rw [List.getD_eq_getElem _ _ (by rw [fht_engine_length]; exact hi)]
  exact fht_engine_getElem log_n buf i _

/-- Applying the engine twice multiplies each element by `n = 2^log_n`:
the exact form of the orthogonality property of §4.2. -/
theorem fht_engine_invol (log_n : Nat) (buf : List ℚ)
    (hlen : buf.length = 2 ^ log_n) :
    fht_engine log_n (fht_engine log_n buf) =
      buf.map (fun q => (2 ^ log_n : ℚ) * q) := by
  apply List.ext_getElem
  · rw [fht_engine_length, List.length_map, hlen]
  · intro i h1 h2
    rw [fht_engine_getElem]
    have hi : i < 2 ^ log_n := by
      rw [fht_engine_length] at h1; exact h1
    rw [fhtFun_congr log_n (fun j => (fht_engine log_n buf).getD j 0)
        (fhtFun log_n (fun j => buf.getD j 0))
        (fun j hj => fht_engine_getD log_n buf j hj) i hi]
    rw [fhtFun_invol log_n (fun j => buf.getD j 0) i hi]
    rw [List.getElem_map]
    rw [List.getD_eq_getElem _ _ (by rw [hlen]; exact hi)]

/-- Modelled from the spec: the in-place engine entry point
(`fht_float`/`fht_double`, `FFHT/fht.c`, not under `src/`).  It computes
the transform of the buffer and returns status 0: per §4.2 the kernel
layer has no fallible preconditions of its own once the Size Validator has
accepted the length. -/
def fht_kernel_spec (buf : List ℚ) (log_n : Nat) : Int × List ℚ :=
  (0, fht_engine log_n buf)

/-- Modelled from the spec: the out-of-place engine entry point
(`fht_float_oop`/`fht_double_oop`, not under `src/`).  Per §4.3 it first
stages the source into the destination via Buffer Staging (an exact
bit-preserving copy, §4.4) and then proceeds identically to the in-place
path on the destination; the previous destination contents are discarded
and the source is not written (its pointer is `*const`). -/
def fht_kernel_oop_spec (input _output : List ℚ) (log_n : Nat) :
    Int × List ℚ :=
  let staged := input
  fht_kernel_spec staged log_n

/-- C2: for every supported `log_n` (`1 ≤ log_n ≤ 30`) and every buffer of
length `n = 2^log_n`, the in-place transform succeeds, applying it twice
multiplies the buffer by `n` (the engine applies no scaling), and dividing
every element of the twice-transformed buffer by `n` recovers the original
buffer — exactly over `ℚ`, hence within any floating-point tolerance. -/
theorem fht_inplace_twice_recovers (log_n : Nat) (xs : List ℚ)
    (h1 : 1 ≤ log_n) (h2 : log_n ≤ 30) (hlen : xs.length = 2 ^ log_n) :
    (fht_inplace fht_kernel_spec xs).1 = .ok () ∧
    (fht_inplace fht_kernel_spec ((fht_inplace fht_kernel_spec xs).2)).1 =
      .ok () ∧
    (fht_inplace fht_kernel_spec ((fht_inplace fht_kernel_spec xs).2)).2 =
      xs.map (fun q => ((2 ^ log_n : Nat) : ℚ) * q) ∧
    ((fht_inplace fht_kernel_spec ((fht_inplace fht_kernel_spec xs).2)).2).map
        (fun q => q / ((2 ^ log_n : Nat) : ℚ)) = xs := by
  have hv : validate_size xs.length = .ok log_n := by
    rw [hlen]; exact validate_size_two_pow log_n h2
  have hstep1 : fht_inplace fht_kernel_spec xs = (.ok (), fht_engine log_n xs) := by
    rw [fht_inplace, hv]
    simp [fht_kernel_spec]
  have hv2 : validate_size (fht_engine log_n xs).length = .ok log_n := by
    rw [fht_engine_length]; exact validate_size_two_pow log_n h2
  have hstep2 : fht_inplace fht_kernel_spec (fht_engine log_n xs) =
      (.ok (), fht_engine log_n (fht_engine log_n xs)) := by
    rw [fht_inplace, hv2]
    simp [fht_kernel_spec]
  have hinv := fht_engine_invol log_n xs hlen
  have hcast : ((2 ^ log_n : Nat) : ℚ) = (2 : ℚ) ^ log_n := by push_cast; ring
  refine ⟨by rw [hstep1], ?_, ?_, ?_⟩
  · rw [hstep1]; rw [hstep2]
  · rw [hstep1]; rw [hstep2]
    simp only [hinv, hcast]
  · rw [hstep1]; rw [hstep2]
    simp only [hinv, hcast, List.map_map]
    have hne : (2 : ℚ) ^ log_n ≠ 0 := pow_ne_zero log_n (by norm_num)
    conv_rhs => rw [← List.map_id xs]
    apply List.map_congr_left
    intro a _
    simp only [Function.comp_apply, id_eq]
    field_simp

theorem fhtFun_zero_apply (x : Nat → ℚ) (i : Nat) : fhtFun 0 x i = x i := rfl

/-- Witness for C2 at `log_n = 1`, `xs = [1, 2]`. -/
theorem fht_inplace_twice_recovers_witness :
    (1 ≤ 1 ∧ (1 : Nat) ≤ 30 ∧ [(1 : ℚ), 2].length = 2 ^ 1) ∧
    ((fht_inplace fht_kernel_spec [(1 : ℚ), 2]).1 = .ok () ∧
      (fht_inplace fht_kernel_spec
          ((fht_inplace fht_kernel_spec [(1 : ℚ), 2]).2)).1 = .ok () ∧
      (fht_inplace fht_kernel_spec
          ((fht_inplace fht_kernel_spec [(1 : ℚ), 2]).2)).2 =
        [(1 : ℚ), 2].map (fun q => ((2 ^ 1 : Nat) : ℚ) * q) ∧
      ((fht_inplace fht_kernel_spec
          ((fht_inplace fht_kernel_spec [(1 : ℚ), 2]).2)).2).map
          (fun q => q / ((2 ^ 1 : Nat) : ℚ)) = [(1 : ℚ), 2]) :=
  ⟨⟨le_refl 1, by norm_num, by decide⟩,
    fht_inplace_twice_recovers 1 [(1 : ℚ), 2] (le_refl 1) (by norm_num) (by decide)⟩

/-- C7: the transform maps the known vectors of the spec exactly:
`[1, 1] → [2, 0]` and `[1, -1, 1, -1] → [0, 4, 0, 0]`.  Over exact
rationals this covers both precisions: all inputs, intermediates and
outputs here are small integers, represented exactly in `f32` and `f64`,
and the engine uses only addition and subtraction. -/
theorem fht_known_vectors :
    fht_inplace fht_kernel_spec [1, 1] = (.ok (), [2, 0]) ∧
    fht_inplace fht_kernel_spec [1, -1, 1, -1] = (.ok (), [0, 4, 0, 0]) := by
  have w2 : fht_engine 1 [1, 1] = [2, 0] := by
    simp [fht_engine, List.range_succ, fhtFun_succ_apply, fhtFun_zero_apply]
    norm_num
  have w4 : fht_engine 2 [1, -1, 1, -1] = [0, 4, 0, 0] := by
    simp [fht_engine, List.range_succ, fhtFun_succ_apply, fhtFun_zero_apply]
    norm_num
  have hv2 : validate_size ([(1 : ℚ), 1]).length = .ok 1 := by decide
  have hv4 : validate_size ([(1 : ℚ), -1, 1, -1]).length = .ok 2 := by decide
  constructor
  · rw [fht_inplace, hv2]
    simp [fht_kernel_spec, w2]
  · rw [fht_inplace, hv4]
    simp [fht_kernel_spec, w4]

/-- C5: on every valid out-of-place call the source buffer is returned
fully unmodified — for every possible kernel behaviour, since the FFI
source pointer is `*const` — and only the destination receives the
transform result. -/
theorem fht_oop_source_unmodified (input output : List ℚ) (log_n : Nat)
    (hlen : input.length = output.length)
    (hv : validate_size input.length = .ok log_n) :
    (∀ kernel : List ℚ → List ℚ → Nat → Int × List ℚ,
      (fht kernel input output).2.1 = input) ∧
    (fht fht_kernel_oop_spec input output).1 = .ok () ∧
    (fht fht_kernel_oop_spec input output).2.2 = fht_engine log_n input := by
  refine ⟨?_, ?_, ?_⟩
  · intro kernel
    rw [fht]
    split
    · rfl
    · split
      · rfl
      · dsimp only
        split
        · rfl
        · rfl
  · rw [fht, if_neg (by omega), hv]
    simp [fht_kernel_oop_spec, fht_kernel_spec]
  · rw [fht, if_neg (by omega), hv]
    simp [fht_kernel_oop_spec, fht_kernel_spec]

/-- Witness for C5 at `input = [1, 1]`, `output = [0, 0]`, `log_n = 1`. -/
theorem fht_oop_source_unmodified_witness :
    ([(1 : ℚ), 1].length = [(0 : ℚ), 0].length ∧
      validate_size ([(1 : ℚ), 1]).length = .ok 1) ∧
    ((∀ kernel : List ℚ → List ℚ → Nat → Int × List ℚ,
        (fht kernel [(1 : ℚ), 1] [(0 : ℚ), 0]).2.1 = [(1 : ℚ), 1]) ∧
      (fht fht_kernel_oop_spec [(1 : ℚ), 1] [(0 : ℚ), 0]).1 = .ok () ∧
      (fht fht_kernel_oop_spec [(1 : ℚ), 1] [(0 : ℚ), 0]).2.2 =
        fht_engine 1 [(1 : ℚ), 1]) :=
  ⟨⟨by decide, by decide⟩,
    fht_oop_source_unmodified [(1 : ℚ), 1] [(0 : ℚ), 0] 1 (by decide) (by decide)⟩

/-- C6: on every valid input, the out-of-place mode produces in the
destination exactly the value the in-place mode produces on (a copy of)
the source — bit-for-bit in the model, where per §4.3 the out-of-place
path is Buffer Staging (an exact copy) followed by the in-place path on
the destination — and both modes return the same result value. -/
theorem fht_oop_matches_inplace (xs ys : List ℚ) (log_n : Nat)
    (hlen : xs.length = ys.length)
    (hv : validate_size xs.length = .ok log_n) :
    (fht fht_kernel_oop_spec xs ys).2.2 = (fht_inplace fht_kernel_spec xs).2 ∧
    (fht fht_kernel_oop_spec xs ys).1 = (fht_inplace fht_kernel_spec xs).1 := by
  rw [fht, fht_inplace, if_neg (by omega), hv]
  constructor
  · simp [fht_kernel_oop_spec, fht_kernel_spec]
  · simp [fht_kernel_oop_spec, fht_kernel_spec]

/-- Witness for C6 at `xs = [1, 2]`, `ys = [3, 4]`, `log_n = 1`. -/
theorem fht_oop_matches_inplace_witness :
    ([(1 : ℚ), 2].length = [(3 : ℚ), 4].length ∧
      validate_size ([(1 : ℚ), 2]).length = .ok 1) ∧
    ((fht fht_kernel_oop_spec [(1 : ℚ), 2] [(3 : ℚ), 4]).2.2 =
        (fht_inplace fht_kernel_spec [(1 : ℚ), 2]).2 ∧
      (fht fht_kernel_oop_spec [(1 : ℚ), 2] [(3 : ℚ), 4]).1 =
        (fht_inplace fht_kernel_spec [(1 : ℚ), 2]).1) :=
  ⟨⟨by decide, by decide⟩,
    fht_oop_matches_inplace [(1 : ℚ), 2] [(3 : ℚ), 4] 1 (by decide) (by decide)⟩
/-- C8: once size validation has passed, both wrapper modes return
`Err(InternalError(code))` exactly when the engine call returns a nonzero
status `code` (the code preserved), `Ok(())` exactly when the engine
returns zero, and never a size error — for every possible engine
behaviour, so a nonzero status is never swallowed or remapped. -/
theorem fht_internal_error_mapping
    (kernelIn : List ℚ → Nat → Int × List ℚ)
    (kernelOop : List ℚ → List ℚ → Nat → Int × List ℚ)
    (data input output : List ℚ) (log_n log_m : Nat) :
    (validate_size data.length = .ok log_n →
      ((fht_inplace kernelIn data).1 = .ok () ↔ (kernelIn data log_n).1 = 0) ∧
      (∀ c : Int, (fht_inplace kernelIn data).1 = .err (.InternalError c) ↔
        ((kernelIn data log_n).1 = c ∧ c ≠ 0)) ∧
      (∀ s : Nat, (fht_inplace kernelIn data).1 ≠ .err (.InvalidSize s) ∧
        (fht_inplace kernelIn data).1 ≠ .err (.SizeTooLarge s))) ∧
    (input.length = output.length → validate_size input.length = .ok log_m →
      ((fht kernelOop input output).1 = .ok () ↔
        (kernelOop input output log_m).1 = 0) ∧
      (∀ c : Int, (fht kernelOop input output).1 = .err (.InternalError c) ↔
        ((kernelOop input output log_m).1 = c ∧ c ≠ 0)) ∧
      (∀ s : Nat, (fht kernelOop input output).1 ≠ .err (.InvalidSize s) ∧
        (fht kernelOop input output).1 ≠ .err (.SizeTooLarge s))) := by
  constructor
  · intro hv
    rw [fht_inplace, hv]
    dsimp only
    by_cases hst : (kernelIn data log_n).1 ≠ 0
    · rw [if_pos hst]
      refine ⟨by simp [hst], ?_, fun s => ⟨by simp, by simp⟩⟩
      intro c
      constructor
      · intro h
        simp only [FhtResult.err.injEq, FhtError.InternalError.injEq] at h
        exact ⟨h, h ▸ hst⟩
      · rintro ⟨rfl, hc⟩
        rfl
    · rw [if_neg hst]
      push_neg at hst
      refine ⟨by simp [hst], ?_, fun s => ⟨by simp, by simp⟩⟩
      intro c
      constructor
      · intro h
        exact absurd h (by simp)
      · rintro ⟨rfl, hc⟩
        exact absurd hst hc
  · intro hlen hv
    rw [fht, if_neg (by omega), hv]
    dsimp only
    by_cases hst : (kernelOop input output log_m).1 ≠ 0
    · rw [if_pos hst]
      refine ⟨by simp [hst], ?_, fun s => ⟨by simp, by simp⟩⟩
      intro c
      constructor
      · intro h
        simp only [FhtResult.err.injEq, FhtError.InternalError.injEq] at h
        exact ⟨h, h ▸ hst⟩
      · rintro ⟨rfl, hc⟩
        rfl
    · rw [if_neg hst]
      push_neg at hst
      refine ⟨by simp [hst], ?_, fun s => ⟨by simp, by simp⟩⟩
      intro c
      constructor
      · intro h
        exact absurd h (by simp)
      · rintro ⟨rfl, hc⟩
        exact absurd hst hc

/-- Witness for C8 at `data = [1, 2]` with an engine that reports status 7:
validation passes and the wrapper maps it to `InternalError 7`. -/
theorem fht_internal_error_mapping_witness :
    validate_size ([(1 : ℚ), 2]).length = .ok 1 ∧
    (((fht_inplace (fun b _ => ((7 : Int), b)) [(1 : ℚ), 2]).1 = .ok () ↔
        ((fun (b : List ℚ) (_ : Nat) => ((7 : Int), b)) [(1 : ℚ), 2] 1).1 = 0) ∧
      (∀ c : Int,
        (fht_inplace (fun b _ => ((7 : Int), b)) [(1 : ℚ), 2]).1 =
            .err (.InternalError c) ↔
          (((fun (b : List ℚ) (_ : Nat) => ((7 : Int), b)) [(1 : ℚ), 2] 1).1 = c ∧
            c ≠ 0)) ∧
      (∀ s : Nat,
        (fht_inplace (fun b _ => ((7 : Int), b)) [(1 : ℚ), 2]).1 ≠
            .err (.InvalidSize s) ∧
          (fht_inplace (fun b _ => ((7 : Int), b)) [(1 : ℚ), 2]).1 ≠
            .err (.SizeTooLarge s))) :=
  ⟨by decide,
    (fht_internal_error_mapping (fun b _ => ((7 : Int), b))
      (fun _ o _ => (0, o)) [(1 : ℚ), 2] [] [] 1 0).1 (by decide)⟩


/-!
## The `FhtArray` ndarray adapter (lib.rs lines 174-234)

`ndarray` is an external crate; its `Array1` and `ArrayViewMut1` are
modelled by the documented contract of ndarray.  For both the owned array
and the mutable view, `as_slice_mut` yields `Some` exactly when the
underlying memory is contiguous in standard layout.  A mutable view may be
strided; an owned `Array1` may also fail to be in standard layout (for
example one produced by `slice_move` with a step, by `invert_axis`, or by
`from_shape_vec` with custom strides), even though the constructors this
crate itself uses (`Array1::from`, `Array1::zeros`) always produce
standard-layout storage.  A call that may panic is modelled by an explicit
`PanicOr` outcome. -/

/-- Outcome of a Rust call that may panic instead of returning. -/
inductive PanicOr (α : Type) : Type where
  | panic (msg : String)
  | value (v : α)

/-- Model of the ndarray mutable one-dimensional view `ArrayViewMut1<A>`:
the viewed elements together with whether the viewed memory is contiguous
in standard layout (the one property `as_slice_mut` depends on). -/
structure ArrayViewMut1 where
  data : List ℚ
  contiguous : Bool

/-- Model of `ArrayViewMut1::as_slice_mut` per the documented contract of
ndarray: `Some` of the underlying slice iff the view is contiguous and in
standard order, else `None`. -/
def ArrayViewMut1.as_slice_mut (v : ArrayViewMut1) : Option (List ℚ) :=
  if v.contiguous then some v.data else none

/-- Model of the ndarray owned one-dimensional array `Array1<A>`: the
owned elements together with whether the storage is contiguous in
standard layout.  Owned arrays are usually in standard layout
(`Array1::from`, `Array1::zeros` always are), but need not be: ndarray
lets an owned array keep custom strides, e.g. via `slice_move` with a
step or `invert_axis`. -/
structure Array1 where
  data : List ℚ
  standard_layout : Bool

/-- Model of `Array1::as_slice_mut` per the documented contract of
ndarray, which is the same for owned arrays as for views: `Some` of the
underlying slice iff the array is contiguous in standard layout, else
`None`. -/
def Array1.as_slice_mut (a : Array1) : Option (List ℚ) :=
  if a.standard_layout then some a.data else none

/-- Embeds `Option::unwrap` from the Rust standard library: the value on
`Some`, a panic on `None`. -/
def unwrap {α : Type} : Option α → PanicOr α
  | none => .panic "called Option::unwrap on a None value"
  | some v => .value v

/-- Embeds `<ArrayViewMut1<f32> as FhtArray>::fht_inplace`
(lib.rs lines 213-216) and the `f64` twin (lines 225-228):
`self.as_slice_mut().unwrap()` followed by the slice-level `fht_inplace`;
the `unwrap` panic propagates. -/
def view_fht_inplace (kernel : List ℚ → Nat → Int × List ℚ)
    (v : ArrayViewMut1) : PanicOr (FhtResult Unit × ArrayViewMut1) :=
  match unwrap v.as_slice_mut with
  | .panic msg => .panic msg
  | .value slice =>
    let r := fht_inplace kernel slice
    .value (r.1, { v with data := r.2 })

/-- Embeds `<Array1<f32> as FhtArray>::fht_inplace` (lib.rs lines 186-189)
and the `f64` twin (lines 199-202): `self.as_slice_mut().unwrap()`
followed by the slice-level `fht_inplace`; the in-place update preserves
the layout of the array. -/
def array1_fht_inplace (kernel : List ℚ → Nat → Int × List ℚ)
    (a : Array1) : PanicOr (FhtResult Unit × Array1) :=
  match unwrap a.as_slice_mut with
  | .panic msg => .panic msg
  | .value slice =>
    let r := fht_inplace kernel slice
    .value (r.1, { a with data := r.2 })

/-- Embeds `<ArrayViewMut1<f32> as FhtArray>::fht` (lib.rs lines
218-221) and the `f64` twin (lines 230-233): the body is
`unimplemented!("Use fht_inplace() for views, or convert to Array1
first")`, which panics unconditionally with that message. -/
def view_fht (_v : ArrayViewMut1) : PanicOr (FhtResult ArrayViewMut1) :=
  .panic "not implemented: Use fht_inplace() for views, or convert to Array1 first"

/-- C9: on every mutable view, regardless of contents or length, the
out-of-place `FhtArray::fht` method panics with the `unimplemented!`
message and never returns a result value, so this fallible path yields no
explicit error value. -/
theorem view_fht_always_panics (v : ArrayViewMut1) :
    view_fht v =
      .panic "not implemented: Use fht_inplace() for views, or convert to Array1 first" ∧
    ∀ r : FhtResult ArrayViewMut1, view_fht v ≠ .value r := by
  refine ⟨rfl, fun r h => ?_⟩
  rw [view_fht] at h
  exact PanicOr.noConfusion h

/-- Counterexample to C10 as stated: an owned `Array1` whose storage is
not contiguous in standard layout — as ndarray produces for example from
`Array1::from(vec![1.0, 2.0, 3.0, 4.0])` followed by `slice_move` with
step 2, which owns the elements `[1, 3]` with stride 2 — makes
`as_slice_mut()` return `None`, so `FhtArray::fht_inplace` hits the very
same `unwrap` panic as a non-contiguous view: the panic branch is not
unreachable on owned arrays. -/
theorem array1_fht_inplace_panic_counterexample :
    array1_fht_inplace fht_kernel_spec ⟨[1, 3], false⟩ =
      .panic "called Option::unwrap on a None value" ∧
    ∀ r : FhtResult Unit × Array1,
      array1_fht_inplace fht_kernel_spec ⟨[1, 3], false⟩ ≠ .value r := by
  refine ⟨rfl, fun r h => ?_⟩
  rw [array1_fht_inplace, Array1.as_slice_mut] at h
  exact PanicOr.noConfusion h

/-- C10 (amended): for every kernel behaviour, `FhtArray::fht_inplace`
panics via `as_slice_mut().unwrap()` exactly when the underlying memory
is not contiguous in standard layout, and otherwise returns a value — on
mutable views and on owned `Array1`s alike.  The unwrap therefore
succeeds on every standard-layout owned array (in particular on
everything `Array1::from` and `Array1::zeros` build, the only
constructors this crate uses), but the panic branch is reachable on a
non-standard-layout owned array. -/
theorem fht_inplace_panic_iff_layout
    (kernel : List ℚ → Nat → Int × List ℚ)
    (v : ArrayViewMut1) (a : Array1) :
    ((∃ m, view_fht_inplace kernel v = .panic m) ↔ v.contiguous = false) ∧
    (v.contiguous = true →
      view_fht_inplace kernel v =
        .value ((fht_inplace kernel v.data).1,
          { v with data := (fht_inplace kernel v.data).2 })) ∧
    ((∃ m, array1_fht_inplace kernel a = .panic m) ↔
      a.standard_layout = false) ∧
    (a.standard_layout = true →
      array1_fht_inplace kernel a =
        .value ((fht_inplace kernel a.data).1,
          { a with data := (fht_inplace kernel a.data).2 })) := by
  refine ⟨?_, ?_, ?_, ?_⟩
  · rcases hc : v.contiguous with _ | _
    · constructor
      · intro _
        rfl
      · intro _
        refine ⟨"called Option::unwrap on a None value", ?_⟩
        rw [view_fht_inplace, ArrayViewMut1.as_slice_mut, hc]
        rfl
    · constructor
      · rintro ⟨m, hm⟩
        rw [view_fht_inplace, ArrayViewMut1.as_slice_mut, hc] at hm
        exact PanicOr.noConfusion hm
      · intro h
        exact Bool.noConfusion h
  · intro hc
    rw [view_fht_inplace, ArrayViewMut1.as_slice_mut, hc]
    rfl
  · rcases hs : a.standard_layout with _ | _
    · constructor
      · intro _
        rfl
      · intro _
        refine ⟨"called Option::unwrap on a None value", ?_⟩
        rw [array1_fht_inplace, Array1.as_slice_mut, hs]
        rfl
    · constructor
      · rintro ⟨m, hm⟩
        rw [array1_fht_inplace, Array1.as_slice_mut, hs] at hm
        exact PanicOr.noConfusion hm
      · intro h
        exact Bool.noConfusion h
  · intro hs
    rw [array1_fht_inplace, Array1.as_slice_mut, hs]
    rfl
